import Mathlib

/-!
# Verification of the `RunnableAgent` tool-calling loop

Shallow embedding of `src/langchain/src/runnable-history.ts` (class
`RunnableAgent`): the bounded, streaming agent loop, its per-turn tool
dispatcher (`runToolCallMessage`), the history-cleaning step
(`_cleanHistory`), the budget counter (`_callsLeft`), and the
snapshot-emission (flicker-avoidance) rule of `stream`.

External collaborators (`@langchain/core`: the chat model, message-chunk
concatenation, zod validation, the history store) are modelled at their
interface boundary: a model turn is represented by the sequence of
accumulated `agentResponse` values the loop observes after each
`concat`, a tool's `schema.parse` and runnable are modelled as functions
returning `Except`, and the caller-side history store is represented by
the message list its one `getMessages()` read returns.
-/

/-- A JSON-like structured value (arguments, tool results, raised
non-`Error` values).  Mirrors the `Record<string, any>` / JSON values
the TypeScript code passes around. -/
inductive JsonVal where
  | null : JsonVal
  | bool (b : Bool) : JsonVal
  | num (n : Int) : JsonVal
  | str (s : String) : JsonVal
  | arr (xs : List JsonVal) : JsonVal
  | obj (kvs : List (String × JsonVal)) : JsonVal

/-- Escaping of one character as performed by `JSON.stringify` on the
characters that actually occur in this development. -/
def jescapeChar (c : Char) : String :=
  if c = '"' then "\\\""
  else if c = '\\' then "\\\\"
  else if c = '\n' then "\\n"
  else if c = '\t' then "\\t"
  else if c = '\r' then "\\r"
  else String.singleton c

/-- `JSON.stringify` escaping of a string body. -/
def jescape (s : String) : String :=
  String.join (s.data.map jescapeChar)

mutual

/-- `JSON.stringify` on the JSON value model. -/
def stringifyJson : JsonVal → String
  | .null => "null"
  | .bool b => if b then "true" else "false"
  | .num n => toString n
  | .str s => "\"" ++ jescape s ++ "\""
  | .arr xs => "[" ++ stringifyArr xs ++ "]"
  | .obj kvs => "\x7b" ++ stringifyObj kvs ++ "\x7d"

/-- Comma-separated serialization of array elements. -/
def stringifyArr : List JsonVal → String
  | [] => ""
  | [x] => stringifyJson x
  | x :: y :: xs => stringifyJson x ++ "," ++ stringifyArr (y :: xs)

/-- Comma-separated serialization of object fields (insertion order,
as in JavaScript). -/
def stringifyObj : List (String × JsonVal) → String
  | [] => ""
  | [(k, v)] => "\"" ++ jescape k ++ "\":" ++ stringifyJson v
  | (k, v) :: kv :: kvs =>
      "\"" ++ jescape k ++ "\":" ++ stringifyJson v ++ "," ++ stringifyObj (kv :: kvs)

end

/-- `ToolCall` from `@langchain/core/messages/tool`:
`{id?, name, args}`. -/
structure ToolCall where
  id : Option String
  name : String
  args : JsonVal

/-- One content block of a block-array message content.  The loop's
cleaning step only distinguishes `type === 'text'` blocks from the
rest. -/
inductive ContentBlock where
  | text (text : String) : ContentBlock
  | other (type : String) : ContentBlock

/-- Message content: either a plain string or an array of content
blocks (`typeof message.content !== 'string'`). -/
inductive MsgContent where
  | str (s : String) : MsgContent
  | blocks (bs : List ContentBlock) : MsgContent

/-- The part of an `AIMessage` / accumulated `AIMessageChunk` the loop
observes: content plus the derived `tool_calls` list. -/
structure AIMsg where
  content : MsgContent
  tool_calls : List ToolCall

/-- `ToolMessage` status. -/
inductive Status where
  | success : Status
  | error : Status
deriving DecidableEq, Repr

/-- The message variants that flow through the loop. -/
inductive Msg where
  | human (text : String) : Msg
  | ai (m : AIMsg) : Msg
  | toolMsg (content : String) (name : String) (tool_call_id : String) (status : Status) : Msg

/-- A value raised by a tool capability: either a JavaScript `Error`
(`e instanceof Error`, carrying a message) or any other raised value. -/
inductive Raised where
  | err (msg : String) : Raised
  | val (v : JsonVal) : Raised

/-- `e instanceof Error ? { error: e.message } : e` from the catch
block of `runToolCallMessage`. -/
def raisedToObj : Raised → JsonVal
  | .err m => .obj [("error", .str m)]
  | .val v => v

/-- One configured tool (`AgentToolCallOptions`): name, description,
argument validator (`schema.parse`, which may throw) and invocation
capability (runnable / function / runnable map, which may throw).  The
zod schema and the runnable are external capabilities, modelled as
functions into `Except`. -/
structure AgentTool where
  name : String
  description : String
  validate : JsonVal → Except Raised JsonVal
  run : JsonVal → Except Raised JsonVal

/-- `RunnableAgentOptions` (without the llm and history capabilities,
which are modelled separately as the environment). -/
structure AgentOptions where
  tools : List AgentTool
  tool_response : Option AgentTool
  maxToolCalls : Option Nat

/-- The tool list used for resolution:
`[...this.options.tools, ...(toolResponse ? [toolResponse] : [])]`. -/
def allTools (o : AgentOptions) : List AgentTool :=
  o.tools ++ (match o.tool_response with | some t => [t] | none => [])

/-- Resolution of a tool-call name against the configured tool set
(`.find((tool) => tool.name === tool_call.name)`). -/
def findTool (o : AgentOptions) (name : String) : Option AgentTool :=
  (allTools o).find? (fun tool => tool.name == name)

/-- `_createToolResponse`: build a `ToolMessage` with
`content = JSON.stringify(toolResponse)`, the call's name,
`tool_call_id = tool_call.id ?? ''` and the given status. -/
def createToolResponse (tc : ToolCall) (toolResponse : JsonVal) (status : Status) : Msg :=
  .toolMsg (stringifyJson toolResponse) tc.name (tc.id.getD "") status

/-- The `try` block of `runToolCallMessage`:
`result = await runnable(zodSchema.parse(tool_call.args))` — argument
validation and execution in one protected region, so a validation throw
and an execution throw reach the same `catch`. -/
def attemptTool (t : AgentTool) (args : JsonVal) : Except Raised JsonVal :=
  match t.validate args with
  | .error e => .error e
  | .ok typed => t.run typed

/-- One iteration of the dispatcher's `map` over `tool_calls`, with a
ghost second component recording which tool's capability was invoked
(`none` when resolution failed and nothing was invoked). -/
def runOneToolCallTr (opts : AgentOptions) (tc : ToolCall) : Msg × Option String :=
  match findTool opts tc.name with
  | none =>
      (createToolResponse tc
        (.obj [("type", .str "text"),
               ("text", .str (stringifyJson
                 (.obj [("success", .bool false),
                        ("error", .str ("Tool \"" ++ tc.name ++ "\" was not found."))])))])
        .error, none)
  | some tool =>
      match attemptTool tool tc.args with
      | .error e => (createToolResponse tc (raisedToObj e) .error, some tool.name)
      | .ok result => (createToolResponse tc result .success, some tool.name)

/-- The tool-result message produced for one tool call. -/
def runOneToolCall (opts : AgentOptions) (tc : ToolCall) : Msg :=
  (runOneToolCallTr opts tc).1

/-- `runToolCallMessage`: fan-out over `input.tool_calls`, fan-in with
`Promise.all`, which resolves to results in the order of the input
promise array. -/
def runToolCallMessage (opts : AgentOptions) (tcs : List ToolCall) : List Msg :=
  tcs.map (runOneToolCall opts)

/-- Concurrent execution model of the fan-out: the calls' executions
complete in an arbitrary schedule order `sched` (a sequence of indices
into `tcs`), each completion writing its result into its own slot of
the result array.  `Promise.all` then reads the slots in input order. -/
def dispatchSched (opts : AgentOptions) (tcs : List ToolCall) (sched : List Nat) :
    List (Option Msg) :=
  sched.foldl
    (fun acc i =>
      match tcs[i]? with
      | some tc => acc.set i (some (runOneToolCall opts tc))
      | none => acc)
    (List.replicate tcs.length none)

/-- The per-block keep condition of `_cleanHistory`:
a `type === 'text'` block is kept iff `text.trim().length > 0`;
every other block is kept. -/
def keepBlock (b : ContentBlock) : Bool :=
  match b with
  | .text t => decide (0 < t.trim.length)
  | .other _ => true

/-- The content filter `_cleanHistory` applies to the block-array
content of an AI message. -/
def cleanBlocks (bs : List ContentBlock) : List ContentBlock :=
  bs.filter keepBlock

/-- Value-level effect of `_cleanHistory` on one message: an AI message
with block-array content gets its whitespace-only text blocks removed;
every other message is left unchanged. -/
def cleanMessageVal : Msg → Msg
  | .ai m =>
      match m.content with
      | .blocks bs => .ai { m with content := .blocks (cleanBlocks bs) }
      | .str _ => .ai m
  | m => m

/-- Value-level effect of `_cleanHistory` on the whole list: the outer
`filter` returns `true` for every message, so no message is dropped and
the result is the element-wise cleaning. -/
def cleanHistoryPure (msgs : List Msg) : List Msg :=
  msgs.map cleanMessageVal

/-- Heap model of `_cleanHistory`'s in-place mutation: the message
objects live in a store of cells, the history array holds references
(indices) into it, and cleaning reassigns `message.content` through
each reference.  Returns the updated store together with the (unchanged)
reference list the `filter` call returns. -/
def cleanHistoryHeap (store : List Msg) (hist : List Nat) : List Msg × List Nat :=
  (hist.foldl (fun st i => st.set i (cleanMessageVal (st.getD i (.human "")))) store, hist)

/-- The environment of one agent: the chat-model capability.
`supportsBinding` models whether `llm.bindTools` exists; `llm` maps the
(cleaned) message list of a turn to the sequence of accumulated
`agentResponse` values the loop observes after each chunk `concat`. -/
structure AgentEnv where
  supportsBinding : Bool
  llm : List Msg → List AIMsg

/-- The fatal errors that cross the loop boundary:
`'Max tool calls reached'` and `'LLM does not support tool binding'`. -/
inductive AgentErr where
  | budget : AgentErr
  | config : AgentErr
deriving DecidableEq, Repr

/-- Ghost record of one completed model turn: the completed AI message,
the `isToolCall` flag, the session history after the turn's appends,
whether the loop exited after this turn and whether that exit was the
stop-tool `break`. -/
structure TurnRec where
  final : AIMsg
  flag : Bool
  sessionAfter : List Msg
  ended : Bool
  byStop : Bool

/-- Result of running the loop: the snapshots yielded on the output
stream, ghost observers (model-turn count, per-turn records, the message
lists passed to the model), the remaining value of `_callsLeft`, and the
outcome — a fatal error, or the final session history on normal
completion (the generator's `return` value). -/
structure LoopOut where
  yields : List (List Msg)
  turns : Nat
  recs : List TurnRec
  llmInputs : List (List Msg)
  callsLeft : Nat
  outcome : Except AgentErr (List Msg)

/-- `new AIMessageChunk('')`: the initial accumulator. -/
def emptyAI : AIMsg := { content := .str "", tool_calls := [] }

/-- The snapshots yielded while consuming one turn's chunk stream, given
the session history at turn start, the current `isToolCall` flag, and
the remaining accumulated states.  Mirrors the `for await` body: the
flag is set as soon as the accumulated `tool_calls` is non-empty; once
set, a snapshot is yielded only when the accumulated `tool_calls` list
is non-empty. -/
def turnYieldsAux (session : List Msg) : Bool → List AIMsg → List (List Msg)
  | _, [] => []
  | flag, s :: rest =>
      let flag' := flag || !s.tool_calls.isEmpty
      let ys := turnYieldsAux session flag' rest
      if flag' then
        if s.tool_calls.isEmpty then ys else (session ++ [.ai s]) :: ys
      else
        (session ++ [.ai s]) :: ys

/-- The `while (true)` loop of `stream`, structured by the strictly
decreasing `_callsLeft` counter (the recursion argument): each
iteration first checks `_callsLeft === 0` (fatal budget error),
decrements, checks tool-binding support (fatal configuration error),
streams one model turn over the cleaned combined history, yields
snapshots per the flicker-avoidance rule, appends the completed AI
message, and — when a tool call was detected — dispatches the calls,
appends their results and applies the stop-tool check. -/
def runLoop (env : AgentEnv) (opts : AgentOptions) (base : List Msg) :
    Nat → List Msg → LoopOut
  | 0, _ =>
      { yields := [], turns := 0, recs := [], llmInputs := [], callsLeft := 0,
        outcome := .error .budget }
  | n + 1, session =>
      if !env.supportsBinding then
        { yields := [], turns := 0, recs := [], llmInputs := [], callsLeft := n,
          outcome := .error .config }
      else
        let llmInput := cleanHistoryPure (base ++ session)
        let states := env.llm llmInput
        let ys := turnYieldsAux session false states
        let final := (states.getLast?).getD emptyAI
        let flag := states.any (fun s => !s.tool_calls.isEmpty)
        let session1 := session ++ [Msg.ai final]
        if flag then
          let results := runToolCallMessage opts final.tool_calls
          let session2 := session1 ++ results
          let stopCalled :=
            match opts.tool_response with
            | some tr => final.tool_calls.any (fun tc => tc.name == tr.name)
            | none => false
          if stopCalled then
            { yields := ys, turns := 1,
              recs := [⟨final, flag, session2, true, true⟩],
              llmInputs := [llmInput], callsLeft := n, outcome := .ok session2 }
          else
            let rest := runLoop env opts base n session2
            { yields := ys ++ rest.yields, turns := 1 + rest.turns,
              recs := ⟨final, flag, session2, false, false⟩ :: rest.recs,
              llmInputs := llmInput :: rest.llmInputs,
              callsLeft := rest.callsLeft, outcome := rest.outcome }
        else
          { yields := ys, turns := 1,
            recs := [⟨final, flag, session1, true, false⟩],
            llmInputs := [llmInput], callsLeft := n, outcome := .ok session1 }

/-- The constructed agent object: its immutable options together with
the mutable private instance field `_callsLeft`. -/
structure RunnableAgent where
  options : AgentOptions
  callsLeft : Nat

/-- The constructor: `this._callsLeft = options.maxToolCalls ?? 10`. -/
def mkAgent (options : AgentOptions) : RunnableAgent :=
  { options := options, callsLeft := options.maxToolCalls.getD 10 }

/-- One call of `stream`: reads the caller-supplied prior history once
(`initialHistory`), seeds an empty session history, runs the loop with
the agent's current `_callsLeft`, and returns the stream data together
with the agent object as left behind (its `_callsLeft` mutated). -/
def agentStream (env : AgentEnv) (agent : RunnableAgent) (initialHistory : List Msg)
    (input : String) : LoopOut × RunnableAgent :=
  let base := initialHistory ++ [Msg.human input]
  let out := runLoop env agent.options base agent.callsLeft []
  (out, { agent with callsLeft := out.callsLeft })

/-- `invoke`: drain the stream with `for await`, keeping the last chunk
(`[]` if the stream yielded nothing); a generator error propagates to
the caller.  The generator's `return` value is not observed. -/
def agentInvoke (env : AgentEnv) (agent : RunnableAgent) (initialHistory : List Msg)
    (input : String) : Except AgentErr (List Msg) × RunnableAgent :=
  let (out, agent') := agentStream env agent initialHistory input
  (match out.outcome with
   | .error e => .error e
   | .ok _ => .ok ((out.yields.getLast?).getD []), agent')

/-- Per-invocation accounting of the loop: the model is invoked at most
`fuel` times; the budget error occurs exactly when all `fuel` turns were
consumed; and (absent the configuration error) the remaining counter is
the starting fuel minus the turns consumed. -/
theorem runLoop_turns (env : AgentEnv) (opts : AgentOptions) (base : List Msg) :
    ∀ (n : Nat) (session : List Msg),
      (runLoop env opts base n session).turns ≤ n ∧
      ((runLoop env opts base n session).outcome = .error .budget →
        (runLoop env opts base n session).turns = n) ∧
      (env.supportsBinding = true →
        (runLoop env opts base n session).callsLeft = n - (runLoop env opts base n session).turns)
  | 0, session => by
      simp [runLoop]
  | n + 1, session => by
      have ih := runLoop_turns env opts base n
      by_cases hb : env.supportsBinding
      · simp only [runLoop, hb, Bool.not_true, Bool.false_eq_true, if_false]
        split
        · split
          · simp
          · dsimp only
            set final := (env.llm (cleanHistoryPure (base ++ session))).getLast?.getD emptyAI
              with hfinal
            set s2 := session ++ [Msg.ai final] ++ runToolCallMessage opts final.tool_calls
              with hs2
            obtain ⟨ht, hbud, hleft⟩ := ih s2
            refine ⟨by omega, fun h => ?_, fun _ => ?_⟩
            · have := hbud h
              omega
            · have := hleft hb
              omega
        · simp
      · simp only [runLoop, hb, Bool.not_false, if_true]
        simp

/-- A model that answers every turn with one chunk containing the plain
text "hi" and no tool calls. -/
def envPlainText : AgentEnv :=
  { supportsBinding := true,
    llm := fun _ => [{ content := .str "hi", tool_calls := [] }] }

/-- A configuration with no tools, no stop tool and `maxToolCalls = 2`. -/
def optsBudgetTwo : AgentOptions :=
  { tools := [], tool_response := none, maxToolCalls := some 2 }

/-- C1: For every agent configuration with turn budget N
(`maxToolCalls`, default 10) and every single invocation of a freshly
constructed agent, the loop performs at most N model turns; when the
invocation aborts with the budget-exhausted error, exactly N model
invocations had happened, so the (N+1)-th turn attempt failed before
invoking the model capability again. -/
theorem c1_turn_budget (env : AgentEnv) (opts : AgentOptions) (hist : List Msg)
    (input : String) :
    (agentStream env (mkAgent opts) hist input).1.turns ≤ opts.maxToolCalls.getD 10 ∧
    ((agentStream env (mkAgent opts) hist input).1.outcome = .error .budget →
      (agentStream env (mkAgent opts) hist input).1.turns = opts.maxToolCalls.getD 10) := by
  have h := runLoop_turns env opts (hist ++ [Msg.human input]) (opts.maxToolCalls.getD 10) []
  exact ⟨h.1, h.2.1⟩

/-- Instantiation of C1 at a concrete configuration and model. -/
theorem c1_turn_budget_witness :
    (agentStream envPlainText (mkAgent optsBudgetTwo) [] "hi").1.turns ≤ 2 ∧
    ((agentStream envPlainText (mkAgent optsBudgetTwo) [] "hi").1.outcome = .error .budget →
      (agentStream envPlainText (mkAgent optsBudgetTwo) [] "hi").1.turns = 2) :=
  c1_turn_budget envPlainText optsBudgetTwo [] "hi"

/-- The fold of `dispatchSched` preserves the result-array length. -/
theorem dispatchFold_length (opts : AgentOptions) (tcs : List ToolCall) :
    ∀ (sched : List Nat) (acc : List (Option Msg)),
      (sched.foldl
        (fun acc i =>
          match tcs[i]? with
          | some tc => acc.set i (some (runOneToolCall opts tc))
          | none => acc) acc).length = acc.length
  | [], _ => rfl
  | i :: rest, acc => by
      have ih := dispatchFold_length opts tcs rest
      cases h : tcs[i]? with
      | none =>
          simp only [List.foldl_cons, h]
          exact ih acc
      | some tc =>
          simp only [List.foldl_cons, h]
          rw [ih, List.length_set]

/-- A slot whose index never completes is left as the accumulator had it. -/
theorem dispatchFold_get_notmem (opts : AgentOptions) (tcs : List ToolCall) :
    ∀ (sched : List Nat) (acc : List (Option Msg)) (j : Nat), j ∉ sched →
      (sched.foldl
        (fun acc i =>
          match tcs[i]? with
          | some tc => acc.set i (some (runOneToolCall opts tc))
          | none => acc) acc)[j]? = acc[j]?
  | [], _, _, _ => rfl
  | i :: rest, acc, j, hj => by
      have hji : j ≠ i := fun h => hj (h ▸ List.mem_cons_self i rest)
      have hjr : j ∉ rest := fun h => hj (List.mem_cons_of_mem i h)
      cases h : tcs[i]? with
      | none =>
          simp only [List.foldl_cons, h]
          exact dispatchFold_get_notmem opts tcs rest acc j hjr
      | some tc =>
          simp only [List.foldl_cons, h]
          rw [dispatchFold_get_notmem opts tcs rest _ j hjr]
          exact List.getElem?_set_ne hji.symm

/-- A slot whose index appears in the schedule holds its call's result
once the fold completes. -/
theorem dispatchFold_get_mem (opts : AgentOptions) (tcs : List ToolCall) :
    ∀ (sched : List Nat) (acc : List (Option Msg)) (j : Nat),
      acc.length = tcs.length → j ∈ sched → ∀ (hlt : j < tcs.length),
      (sched.foldl
        (fun acc i =>
          match tcs[i]? with
          | some tc => acc.set i (some (runOneToolCall opts tc))
          | none => acc) acc)[j]? =
        some (some (runOneToolCall opts (tcs.get ⟨j, hlt⟩)))
  | [], _, _, _, hj, _ => absurd hj (List.not_mem_nil _)
  | i :: rest, acc, j, hlen, hj, hlt => by
      by_cases hjr : j ∈ rest
      · cases h : tcs[i]? with
        | none =>
            simp only [List.foldl_cons, h]
            exact dispatchFold_get_mem opts tcs rest acc j hlen hjr hlt
        | some tc =>
            simp only [List.foldl_cons, h]
            refine dispatchFold_get_mem opts tcs rest _ j ?_ hjr hlt
            rw [List.length_set, hlen]
      · have hji : j = i := by
          rcases List.mem_cons.mp hj with h | h
          · exact h
          · exact absurd h hjr
        subst hji
        have h : tcs[j]? = some (tcs.get ⟨j, hlt⟩) := List.getElem?_eq_getElem hlt
        simp only [List.foldl_cons, h]
        rw [dispatchFold_get_notmem opts tcs rest _ j hjr]
        exact List.getElem?_set_eq_of_lt _ (hlen ▸ hlt)

/-- A tool call named `nm` with a fixed id and empty-object arguments. -/
def tcNamed (nm : String) : ToolCall :=
  { id := some "1", name := nm, args := .obj [] }

/-- The content string of a tool-result message. -/
def msgContentStr : Msg → String
  | .toolMsg c _ _ _ => c
  | _ => ""

/-- C4: For every ordered tool-call list of one AI turn, executing the
calls under an arbitrary completion schedule (in which every call
completes) fills the result array with exactly the same messages, in
input order, as the dispatcher returns; the dispatcher returns exactly
one tool-result message per call, the i-th result being the i-th call's
result; and the results flanking any one call are computed from the
sibling calls alone, so one call's failure never aborts or alters
them. -/
theorem c4_dispatch_order_isolation (opts : AgentOptions) (tcs : List ToolCall)
    (sched : List Nat) (hsched : ∀ i : Fin tcs.length, (i : Nat) ∈ sched) :
    dispatchSched opts tcs sched = (runToolCallMessage opts tcs).map some ∧
    (runToolCallMessage opts tcs).length = tcs.length ∧
    (∀ i : Fin tcs.length,
      (runToolCallMessage opts tcs).get
          ⟨i, by simpa only [runToolCallMessage, List.length_map] using i.isLt⟩ =
        runOneToolCall opts (tcs.get i)) ∧
    (∀ (l1 l2 : List ToolCall) (a : ToolCall),
      runToolCallMessage opts (l1 ++ a :: l2) =
        runToolCallMessage opts l1 ++ runOneToolCall opts a :: runToolCallMessage opts l2) := by
  refine ⟨?_, by simp [runToolCallMessage], ?_, ?_⟩
  · refine List.ext_getElem? fun j => ?_
    by_cases hj : j < tcs.length
    · rw [show dispatchSched opts tcs sched =
            sched.foldl
              (fun acc i =>
                match tcs[i]? with
                | some tc => acc.set i (some (runOneToolCall opts tc))
                | none => acc)
              (List.replicate tcs.length none) from rfl]
      rw [dispatchFold_get_mem opts tcs sched _ j (List.length_replicate _ _)
            (hsched ⟨j, hj⟩) hj]
      simp only [runToolCallMessage, List.getElem?_map, List.getElem?_eq_getElem hj]
      rfl
    · have h1 : (dispatchSched opts tcs sched).length = tcs.length := by
        rw [show dispatchSched opts tcs sched =
              sched.foldl
                (fun acc i =>
                  match tcs[i]? with
                  | some tc => acc.set i (some (runOneToolCall opts tc))
                  | none => acc)
                (List.replicate tcs.length none) from rfl]
        rw [dispatchFold_length, List.length_replicate]
      rw [List.getElem?_eq_none (by omega : (dispatchSched opts tcs sched).length ≤ j),
          List.getElem?_eq_none]
      simp only [List.length_map, runToolCallMessage]
      omega
  · intro i
    simp [runToolCallMessage]
  · intro l1 l2 a
    simp [runToolCallMessage]

/-- Instantiation of C4: two calls completing in reversed order. -/
theorem c4_dispatch_order_isolation_witness :
    (∀ i : Fin ([tcNamed "a", tcNamed "b"] : List ToolCall).length,
      (i : Nat) ∈ ([1, 0] : List Nat)) ∧
    (dispatchSched optsBudgetTwo [tcNamed "a", tcNamed "b"] [1, 0] =
        (runToolCallMessage optsBudgetTwo [tcNamed "a", tcNamed "b"]).map some ∧
      (runToolCallMessage optsBudgetTwo [tcNamed "a", tcNamed "b"]).length =
        ([tcNamed "a", tcNamed "b"] : List ToolCall).length ∧
      (∀ i : Fin ([tcNamed "a", tcNamed "b"] : List ToolCall).length,
        (runToolCallMessage optsBudgetTwo [tcNamed "a", tcNamed "b"]).get
            ⟨i, by simpa only [runToolCallMessage, List.length_map] using i.isLt⟩ =
          runOneToolCall optsBudgetTwo (([tcNamed "a", tcNamed "b"] : List ToolCall).get i)) ∧
      (∀ (l1 l2 : List ToolCall) (a : ToolCall),
        runToolCallMessage optsBudgetTwo (l1 ++ a :: l2) =
          runToolCallMessage optsBudgetTwo l1 ++
            runOneToolCall optsBudgetTwo a :: runToolCallMessage optsBudgetTwo l2)) :=
  ⟨by decide, c4_dispatch_order_isolation optsBudgetTwo [tcNamed "a", tcNamed "b"] [1, 0]
    (by decide)⟩

/-- C5 counterexample: for the unresolved call `foo` against a
configuration with no tools, the produced tool-result content is NOT
the serialized object `\x7bsuccess:false, error:"Tool \"foo\" was not
found."\x7d` claimed by the spec (the code wraps that object inside a
`\x7btype:'text', text:...\x7d` block before serializing). -/
theorem c5_not_found_counterexample :
    msgContentStr (runOneToolCall optsBudgetTwo (tcNamed "foo")) ≠
      stringifyJson (.obj [("success", .bool false),
        ("error", .str "Tool \"foo\" was not found.")]) := by
  decide

/-- C5 (amended): for every tool call whose name resolves to no
configured tool (the stop tool included in the search), the dispatcher
produces a tool-result message with `status = error` whose content is
the serialization of `\x7btype:"text", text: s\x7d` where `s` is the
serialization of `\x7bsuccess:false, error:"Tool \"<name>\" was not
found."\x7d`; it invokes no tool capability for that call, and the
result is an ordinary message (nothing is thrown out of `invoke`). -/
theorem c5_not_found_amended (opts : AgentOptions) (tc : ToolCall)
    (h : findTool opts tc.name = none) :
    runOneToolCallTr opts tc =
      (Msg.toolMsg
        (stringifyJson (.obj [("type", .str "text"),
          ("text", .str (stringifyJson (.obj [("success", .bool false),
            ("error", .str ("Tool \"" ++ tc.name ++ "\" was not found."))])))]))
        tc.name (tc.id.getD "") .error, none) := by
  unfold runOneToolCallTr
  rw [h]
  rfl

/-- Instantiation of C5 (amended) at the unresolved call `foo`. -/
theorem c5_not_found_amended_witness :
    findTool optsBudgetTwo (tcNamed "foo").name = none ∧
    runOneToolCallTr optsBudgetTwo (tcNamed "foo") =
      (Msg.toolMsg
        (stringifyJson (.obj [("type", .str "text"),
          ("text", .str (stringifyJson (.obj [("success", .bool false),
            ("error", .str ("Tool \"" ++ (tcNamed "foo").name ++ "\" was not found."))])))]))
        (tcNamed "foo").name ((tcNamed "foo").id.getD "") .error, none) :=
  ⟨rfl, c5_not_found_amended optsBudgetTwo (tcNamed "foo") rfl⟩

/-- C6: For every resolved tool call, an argument-validation failure
raising `e` and an execution failure raising `e` produce the identical
tool-result message `createToolResponse tc (raisedToObj e) .error` —
the two failure kinds are not distinguished — where the serialized
content is `\x7berror: <message>\x7d` when the raised value is an
`Error` object and the raised value itself otherwise; the failure is
returned as a message, never thrown; and on success the serialized
return value becomes the content with `status = success`. -/
theorem c6_validation_execution_coalesced (opts : AgentOptions) (tc : ToolCall)
    (tool : AgentTool) (h : findTool opts tc.name = some tool) :
    (∀ e : Raised, tool.validate tc.args = .error e →
      runOneToolCallTr opts tc = (createToolResponse tc (raisedToObj e) .error, some tool.name)) ∧
    (∀ (typed : JsonVal) (e : Raised),
      tool.validate tc.args = .ok typed → tool.run typed = .error e →
      runOneToolCallTr opts tc = (createToolResponse tc (raisedToObj e) .error, some tool.name)) ∧
    (∀ (typed result : JsonVal),
      tool.validate tc.args = .ok typed → tool.run typed = .ok result →
      runOneToolCallTr opts tc = (createToolResponse tc result .success, some tool.name)) ∧
    (∀ m : String, raisedToObj (.err m) = .obj [("error", .str m)]) ∧
    (∀ v : JsonVal, raisedToObj (.val v) = v) := by
  refine ⟨?_, ?_, ?_, fun _ => rfl, fun _ => rfl⟩
  · intro e he
    unfold runOneToolCallTr attemptTool
    rw [h]
    dsimp only
    rw [he]
  · intro typed e hv hr
    unfold runOneToolCallTr attemptTool
    rw [h]
    dsimp only
    rw [hv]
    dsimp only
    rw [hr]
  · intro typed result hv hr
    unfold runOneToolCallTr attemptTool
    rw [h]
    dsimp only
    rw [hv]
    dsimp only
    rw [hr]

/-- A tool whose validator always raises a `ZodError`-like error. -/
def toolBadArgs : AgentTool :=
  { name := "bad", description := "d",
    validate := fun _ => .error (.err "invalid args"),
    run := fun _ => .ok (.obj []) }

/-- A configuration containing only `toolBadArgs`. -/
def optsBadArgs : AgentOptions :=
  { tools := [toolBadArgs], tool_response := none, maxToolCalls := none }

/-- Instantiation of C6 at a tool whose validation fails. -/
theorem c6_validation_execution_coalesced_witness :
    findTool optsBadArgs (tcNamed "bad").name = some toolBadArgs ∧
    ((∀ e : Raised, toolBadArgs.validate (tcNamed "bad").args = .error e →
      runOneToolCallTr optsBadArgs (tcNamed "bad") =
        (createToolResponse (tcNamed "bad") (raisedToObj e) .error, some toolBadArgs.name)) ∧
    (∀ (typed : JsonVal) (e : Raised),
      toolBadArgs.validate (tcNamed "bad").args = .ok typed →
      toolBadArgs.run typed = .error e →
      runOneToolCallTr optsBadArgs (tcNamed "bad") =
        (createToolResponse (tcNamed "bad") (raisedToObj e) .error, some toolBadArgs.name)) ∧
    (∀ (typed result : JsonVal),
      toolBadArgs.validate (tcNamed "bad").args = .ok typed →
      toolBadArgs.run typed = .ok result →
      runOneToolCallTr optsBadArgs (tcNamed "bad") =
        (createToolResponse (tcNamed "bad") result .success, some toolBadArgs.name)) ∧
    (∀ m : String, raisedToObj (.err m) = .obj [("error", .str m)]) ∧
    (∀ v : JsonVal, raisedToObj (.val v) = v)) :=
  ⟨rfl, c6_validation_execution_coalesced optsBadArgs (tcNamed "bad") toolBadArgs rfl⟩

/-- Whether a yielded snapshot's trailing accumulated AI message has a
non-empty `tool_calls` list. -/
def snapshotHasToolCalls (y : List Msg) : Bool :=
  match y.getLast? with
  | some (.ai m) => !m.tool_calls.isEmpty
  | _ => false

/-- A boolean sequence never returns to `false` after a `true`: every
entry at or after a `true` entry is `true`. -/
def MonoTrue (l : List Bool) : Prop :=
  ∀ i j : Nat, i ≤ j → l[i]? = some true → l[j]? ≠ some false

/-- Prepending `false` preserves `MonoTrue`. -/
theorem monoTrue_cons_false {l : List Bool} (h : MonoTrue l) : MonoTrue (false :: l) := by
  intro i j hij hi
  cases i with
  | zero => simp at hi
  | succ i =>
    cases j with
    | zero => omega
    | succ j =>
      simp only [List.getElem?_cons_succ] at hi ⊢
      exact h i j (by omega) hi

/-- A `true` head followed by an all-`true` tail is `MonoTrue`. -/
theorem monoTrue_cons_true {l : List Bool} (h : ∀ b ∈ l, b = true) :
    MonoTrue (true :: l) := by
  intro i j _ _
  cases j with
  | zero => simp
  | succ j =>
    simp only [List.getElem?_cons_succ]
    intro hj
    have := h false (List.getElem?_mem hj)
    simp at this

/-- Every snapshot emitted while the tool-call flag is already set has
a non-empty `tool_calls` list on its accumulated AI message. -/
theorem turnYieldsAux_true_all (session : List Msg) :
    ∀ states : List AIMsg, ∀ y ∈ turnYieldsAux session true states,
      snapshotHasToolCalls y = true
  | [], y, hy => absurd hy (List.not_mem_nil _)
  | s :: rest, y, hy => by
      simp only [turnYieldsAux, Bool.true_or, if_true] at hy
      by_cases hs : s.tool_calls.isEmpty
      · rw [if_pos hs] at hy
        exact turnYieldsAux_true_all session rest y hy
      · rw [if_neg hs] at hy
        rcases List.mem_cons.mp hy with h | h
        · subst h
          simp only [snapshotHasToolCalls, List.getLast?_concat]
          exact Bool.not_eq_true' .. ▸ (by simpa using hs)
        · exact turnYieldsAux_true_all session rest y h

/-- C7 core: starting from an unset flag, the emitted snapshots of one
turn form a sequence in which every snapshot at or after the first
snapshot with a non-empty `tool_calls` list itself has a non-empty
`tool_calls` list. -/
theorem turnYields_monoTrue (session : List Msg) :
    ∀ states : List AIMsg,
      MonoTrue ((turnYieldsAux session false states).map snapshotHasToolCalls)
  | [] => by intro i j _ hi; simp [turnYieldsAux] at hi
  | s :: rest => by
      simp only [turnYieldsAux, Bool.false_or]
      by_cases hs : s.tool_calls.isEmpty
      · rw [show (!s.tool_calls.isEmpty) = false by simp [hs]]
        simp only [Bool.false_eq_true, if_false]
        rw [List.map_cons]
        have hhead : snapshotHasToolCalls (session ++ [.ai s]) = false := by
          simp only [snapshotHasToolCalls, List.getLast?_concat]
          simp [hs]
        rw [hhead]
        exact monoTrue_cons_false (turnYields_monoTrue session rest)
      · rw [show (!s.tool_calls.isEmpty) = true by simp [hs]]
        simp only [if_true, hs, Bool.false_eq_true, if_false]
        rw [List.map_cons]
        have hhead : snapshotHasToolCalls (session ++ [.ai s]) = true := by
          simp only [snapshotHasToolCalls, List.getLast?_concat]
          simp [hs]
        rw [hhead]
        refine monoTrue_cons_true ?_
        intro b hb
        rcases List.mem_map.mp hb with ⟨y, hy, hby⟩
        rw [← hby]
        exact turnYieldsAux_true_all session rest y hy

/-- An accumulated AI state with plain text and no tool calls. -/
def aiText (s : String) : AIMsg := { content := .str s, tool_calls := [] }

/-- An accumulated AI state carrying one tool call named `nm`. -/
def aiCall (nm : String) : AIMsg := { content := .str "", tool_calls := [tcNamed nm] }

/-- C7: For every streamed turn (any session prefix and any sequence of
accumulated states), the sequence of emitted snapshots never shows an
empty `tool_calls` list after a snapshot with a non-empty one: once the
accumulated message is determined to contain a tool call, every
subsequently emitted snapshot has a non-empty `tool_calls` list on its
accumulated AI message. -/
theorem c7_flicker_avoidance (session : List Msg) (states : List AIMsg) :
    MonoTrue ((turnYieldsAux session false states).map snapshotHasToolCalls) :=
  turnYields_monoTrue session states

/-- Instantiation of C7 on a turn whose accumulated states go
text-only, then tool call, then tool call. -/
theorem c7_flicker_avoidance_witness :
    MonoTrue ((turnYieldsAux [] false [aiText "a", aiCall "t", aiCall "t"]).map
      snapshotHasToolCalls) :=
  c7_flicker_avoidance [] [aiText "a", aiCall "t", aiCall "t"]

/-- Whether a message is a tool-result message. -/
def isToolResultMsg : Msg → Bool
  | .toolMsg _ _ _ _ => true
  | _ => false

/-- Whether a message is an AI message. -/
def isAIMsg : Msg → Bool
  | .ai _ => true
  | _ => false

/-- The dispatcher only produces tool-result messages. -/
theorem runOneToolCall_isToolResult (opts : AgentOptions) (tc : ToolCall) :
    isToolResultMsg (runOneToolCall opts tc) = true := by
  unfold runOneToolCall runOneToolCallTr
  split
  · rfl
  · split <;> rfl

/-- In a turn none of whose accumulated states shows a tool call, every
state is emitted as a snapshot. -/
theorem turnYieldsAux_no_calls (session : List Msg) :
    ∀ (states : List AIMsg), (∀ s ∈ states, s.tool_calls.isEmpty = true) →
      turnYieldsAux session false states = states.map (fun s => session ++ [Msg.ai s])
  | [], _ => rfl
  | x :: rest, h => by
      have hx : x.tool_calls.isEmpty = true := h x (List.mem_cons_self _ _)
      have ih := turnYieldsAux_no_calls session rest (fun s hs => h s (List.mem_cons_of_mem _ hs))
      simp [turnYieldsAux, hx, ih]

/-- `getLast?` ignores the head of a list with a non-empty tail. -/
theorem getLast?_cons_of_ne_nil {α : Type} (a : α) (l : List α) (h : l ≠ []) :
    (a :: l).getLast? = l.getLast? := by
  cases l with
  | nil => exact absurd rfl h
  | cons b t => simp [List.getLast?_cons_cons]

/-- When the last accumulated state of a turn carries a tool call, that
state is the turn's last emitted snapshot (whatever the flag). -/
theorem turnYieldsAux_getLast_emit (session : List Msg) :
    ∀ (states : List AIMsg) (flag : Bool) (last : AIMsg),
      states.getLast? = some last → last.tool_calls.isEmpty = false →
      (turnYieldsAux session flag states).getLast? = some (session ++ [Msg.ai last])
  | [], _, _, h, _ => by simp at h
  | [x], flag, last, h, hne => by
      have hx : x = last := by simpa using h
      subst hx
      simp [turnYieldsAux, hne]
  | x :: y :: rest, flag, last, h, hne => by
      have h' : (y :: rest).getLast? = some last := by
        simpa [List.getLast?_cons_cons] using h
      have ih := turnYieldsAux_getLast_emit session (y :: rest)
        (flag || !x.tool_calls.isEmpty) last h' hne
      have hnil : turnYieldsAux session (flag || !x.tool_calls.isEmpty) (y :: rest) ≠ [] := by
        intro hcontra
        rw [hcontra] at ih
        simp at ih
      rw [turnYieldsAux]
      split
      · split
        · exact ih
        · rw [getLast?_cons_of_ne_nil _ _ hnil]
          exact ih
      · rw [getLast?_cons_of_ne_nil _ _ hnil]
        exact ih

/-- C2 core: when the loop completes normally, the last emitted
snapshot either is the final session history (no-tool-call exit) or is
extended by the terminating turn's non-empty tool-result messages to
the final session history (stop-tool exit), provided the model yields
at least one fragment per turn. -/
theorem runLoop_last_yield (env : AgentEnv) (opts : AgentOptions) (base : List Msg)
    (hne : ∀ msgs : List Msg, env.llm msgs ≠ []) :
    ∀ (n : Nat) (session s : List Msg),
      (runLoop env opts base n session).outcome = .ok s →
      ∃ y, (runLoop env opts base n session).yields.getLast? = some y ∧
        (y = s ∨ ∃ results, results ≠ [] ∧ (∀ r ∈ results, isToolResultMsg r = true) ∧
          s = y ++ results)
  | 0, session, s => by
      intro h
      simp [runLoop] at h
  | n + 1, session, s => by
      intro h
      by_cases hb : env.supportsBinding
      case neg =>
        simp [runLoop, hb] at h
      case pos =>
        simp only [runLoop, hb, Bool.not_true, Bool.false_eq_true, if_false] at h ⊢
        set states := env.llm (cleanHistoryPure (base ++ session)) with hstates
        set final := states.getLast?.getD emptyAI with hfinal
        have hsne : states ≠ [] := hstates ▸ hne _
        by_cases hflag : states.any (fun st => !st.tool_calls.isEmpty) = true
        · rw [if_pos hflag] at h ⊢
          by_cases hstop : (match opts.tool_response with
            | some tr => final.tool_calls.any fun tc => tc.name == tr.name
            | none => false) = true
          · rw [if_pos hstop] at h ⊢
            dsimp only at h ⊢
            cases hlast : states.getLast? with
            | none => exact absurd (List.getLast?_eq_none_iff.mp hlast) hsne
            | some l =>
              have hfl : final = l := by rw [hfinal, hlast]; rfl
              have htr : final.tool_calls ≠ [] := by
                rcases ho : opts.tool_response with _ | tr
                · rw [ho] at hstop
                  simp at hstop
                · rw [ho] at hstop
                  rcases List.any_eq_true.mp hstop with ⟨tc, htc, _⟩
                  exact List.ne_nil_of_mem htc
              have hie : final.tool_calls.isEmpty = false := by
                cases hemp : final.tool_calls.isEmpty
                · rfl
                · exact absurd (List.isEmpty_iff.mp hemp) htr
              injection h with h1
              refine ⟨session ++ [Msg.ai final], ?_,
                Or.inr ⟨runToolCallMessage opts final.tool_calls, ?_, ?_, ?_⟩⟩
              · rw [hfl]
                exact turnYieldsAux_getLast_emit session states false l hlast (hfl ▸ hie)
              · intro hcontra
                refine htr ?_
                have hlen := congrArg List.length hcontra
                simpa [runToolCallMessage] using hlen
              · intro r hr
                rcases List.mem_map.mp hr with ⟨tc, _, hrt⟩
                rw [← hrt]
                exact runOneToolCall_isToolResult opts tc
              · rw [← h1]
          · rw [if_neg hstop] at h ⊢
            dsimp only at h ⊢
            rcases runLoop_last_yield env opts base hne n
              (session ++ [Msg.ai final] ++ runToolCallMessage opts final.tool_calls) s h
              with ⟨y, hy, hd⟩
            have hnil : (runLoop env opts base n
                (session ++ [Msg.ai final] ++
                  runToolCallMessage opts final.tool_calls)).yields ≠ [] := by
              intro hcontra
              rw [hcontra] at hy
              simp at hy
            rw [List.getLast?_append_of_ne_nil _ hnil]
            exact ⟨y, hy, hd⟩
        · rw [if_neg hflag] at h ⊢
          dsimp only at h ⊢
          have hall : ∀ st ∈ states, st.tool_calls.isEmpty = true := by
            intro st hst
            have hfa := List.any_eq_false.mp (Bool.not_eq_true _ ▸ hflag : states.any
              (fun st => !st.tool_calls.isEmpty) = false) st hst
            simpa using hfa
          rw [turnYieldsAux_no_calls session states hall, List.getLast?_map]
          cases hlast : states.getLast? with
          | none => exact absurd (List.getLast?_eq_none_iff.mp hlast) hsne
          | some l =>
            have hfl : final = l := by rw [hfinal, hlast]; rfl
            injection h with h1
            exact ⟨session ++ [Msg.ai l], rfl, Or.inl (by rw [← h1, hfl])⟩

/-- A stop tool whose capability trivially succeeds. -/
def toolStop : AgentTool :=
  { name := "stop", description := "d",
    validate := fun a => .ok a, run := fun _ => .ok (.obj []) }

/-- A configuration designating `toolStop` as the stop tool. -/
def optsStop : AgentOptions :=
  { tools := [], tool_response := some toolStop, maxToolCalls := some 5 }

/-- A model that calls the stop tool on its first (and only) chunk of
every turn. -/
def envStopCall : AgentEnv :=
  { supportsBinding := true, llm := fun _ => [aiCall "stop"] }

/-- C2 counterexample: on the stop-tool termination path the final
session history has two messages (the AI message and the stop tool's
result), but the last snapshot emitted on the stream — and hence the
result of `invoke` — has only one: the terminating turn's tool-result
message is appended to the session history without a subsequent
snapshot, so the stream's last element is not the final session
history and `invoke` does not return it. -/
theorem c2_last_snapshot_counterexample :
    ((agentStream envStopCall (mkAgent optsStop) [] "hi").1.yields.getLast?.getD []).length
        = 1 ∧
    (agentStream envStopCall (mkAgent optsStop) [] "hi").1.outcome.map List.length =
      .ok 2 ∧
    (agentInvoke envStopCall (mkAgent optsStop) [] "hi").1.map List.length = .ok 1 :=
  ⟨rfl, rfl, rfl⟩

/-- C2 (amended): `invoke` returns the stream's last emitted snapshot.
When the loop completes normally and every model turn produces at least
one fragment, that snapshot is the final session history on the
no-tool-call exit; on the stop-tool exit the final session history
strictly extends it by the terminating turn's (non-empty, never
emitted) tool-result messages. -/
theorem c2_invoke_last_snapshot_amended (env : AgentEnv) (opts : AgentOptions)
    (hist : List Msg) (input : String) (hne : ∀ msgs : List Msg, env.llm msgs ≠ [])
    (s : List Msg) (h : (agentStream env (mkAgent opts) hist input).1.outcome = .ok s) :
    ∃ y, (agentInvoke env (mkAgent opts) hist input).1 = .ok y ∧
      (y = s ∨ ∃ results, results ≠ [] ∧ (∀ r ∈ results, isToolResultMsg r = true) ∧
        s = y ++ results) := by
  rcases runLoop_last_yield env opts (hist ++ [Msg.human input]) hne
    ((mkAgent opts).callsLeft) [] s h with ⟨y, hy, hd⟩
  refine ⟨y, ?_, hd⟩
  have heq : (agentInvoke env (mkAgent opts) hist input).1 =
      match (agentStream env (mkAgent opts) hist input).1.outcome with
      | .error e => .error e
      | .ok _ =>
          .ok (((agentStream env (mkAgent opts) hist input).1.yields.getLast?).getD []) := rfl
  rw [heq, h]
  show Except.ok (((runLoop env opts (hist ++ [Msg.human input])
    ((mkAgent opts).callsLeft) []).yields.getLast?).getD []) = Except.ok y
  rw [hy]
  rfl

/-- Instantiation of C2 (amended) on a single text-only turn. -/
theorem c2_invoke_last_snapshot_amended_witness :
    (∀ msgs : List Msg, envPlainText.llm msgs ≠ []) ∧
    (agentStream envPlainText (mkAgent optsBudgetTwo) [] "hi").1.outcome =
      .ok [Msg.ai { content := .str "hi", tool_calls := [] }] ∧
    ∃ y, (agentInvoke envPlainText (mkAgent optsBudgetTwo) [] "hi").1 = .ok y ∧
      (y = [Msg.ai { content := .str "hi", tool_calls := [] }] ∨
        ∃ results, results ≠ [] ∧ (∀ r ∈ results, isToolResultMsg r = true) ∧
          [Msg.ai { content := .str "hi", tool_calls := [] }] = y ++ results) :=
  ⟨fun _ => List.cons_ne_nil _ _, rfl,
    c2_invoke_last_snapshot_amended envPlainText optsBudgetTwo [] "hi"
      (fun _ => List.cons_ne_nil _ _) _ rfl⟩

/-- Interface condition on one turn's completed accumulation, used only
at the DETECT step: if any accumulated state showed a tool call during
the turn (what sets the sticky `isToolCall` flag), then the completed
(final accumulated) message still carries at least one tool call.
Mid-stream states are unconstrained — the derived `tool_calls` view is
re-parsed from partial arguments on every `concat` and may transiently
empty again, as the source's own comment notes — only the completed
message matters, because dispatch and the stop check read it. -/
def tcFinalized (states : List AIMsg) : Prop :=
  states.any (fun st => !st.tool_calls.isEmpty) = true →
  ((states.getLast?.getD emptyAI).tool_calls.isEmpty) = false

instance (states : List AIMsg) : Decidable (tcFinalized states) := by
  unfold tcFinalized
  infer_instance

/-- C3: Provided each turn's completed message retains any detected
tool call (`tcFinalized`), a completed turn ends the loop iff
its completed AI message carries zero tool calls, or a stop tool is
configured and some call of the completed message names it.  In the
zero-tool-call case the AI message is the last session-history entry;
in the stop-tool case the session history ends with the AI message
followed by that turn's tool-result messages (which exist), even if
non-stop calls occurred in the same turn.  Otherwise the record is not
terminal and the loop proceeds to another model turn. -/
theorem c3_termination_iff (env : AgentEnv) (opts : AgentOptions) (base : List Msg)
    (hfin : ∀ msgs : List Msg, tcFinalized (env.llm msgs)) :
    ∀ (n : Nat) (session : List Msg), ∀ r ∈ (runLoop env opts base n session).recs,
      (r.ended = true ↔ (r.final.tool_calls = [] ∨
        ∃ tr, opts.tool_response = some tr ∧
          r.final.tool_calls.any (fun tc => tc.name == tr.name) = true)) ∧
      (r.ended = true → r.byStop = false →
        r.sessionAfter.getLast? = some (.ai r.final)) ∧
      (r.ended = true → r.byStop = true →
        ∃ pre, r.sessionAfter = pre ++ Msg.ai r.final ::
          runToolCallMessage opts r.final.tool_calls ∧ r.final.tool_calls ≠ [])
  | 0, session, r, hr => by
      simp [runLoop] at hr
  | n + 1, session, r, hr => by
      by_cases hb : env.supportsBinding
      case neg =>
        simp [runLoop, hb] at hr
      case pos =>
        simp only [runLoop, hb, Bool.not_true, Bool.false_eq_true, if_false] at hr
        set states := env.llm (cleanHistoryPure (base ++ session)) with hstates
        set final := states.getLast?.getD emptyAI with hfinal
        by_cases hflag : states.any (fun st => !st.tool_calls.isEmpty) = true
        · rw [if_pos hflag] at hr
          have hie : final.tool_calls.isEmpty = false :=
            hfinal ▸ (hstates ▸ hfin _ : tcFinalized states) hflag
          have htcne : final.tool_calls ≠ [] := List.isEmpty_eq_false.mp hie
          by_cases hstop : (match opts.tool_response with
            | some tr => final.tool_calls.any fun tc => tc.name == tr.name
            | none => false) = true
          · rw [if_pos hstop] at hr
            dsimp only at hr
            rcases List.mem_singleton.mp hr with rfl
            refine ⟨⟨fun _ => ?_, fun _ => rfl⟩, fun _ hc => by simp at hc, fun _ _ => ?_⟩
            · rcases ho : opts.tool_response with _ | tr
              · rw [ho] at hstop
                simp at hstop
              · rw [ho] at hstop
                exact Or.inr ⟨tr, rfl, hstop⟩
            · exact ⟨session, by rw [List.append_assoc]; rfl, htcne⟩
          · rw [if_neg hstop] at hr
            dsimp only at hr
            rcases List.mem_cons.mp hr with rfl | htail
            · refine ⟨⟨fun hc => by simp at hc, fun hdisj => ?_⟩,
                fun hc => by simp at hc, fun hc => by simp at hc⟩
              rcases hdisj with hnil | ⟨tr, htr, hany⟩
              · exact absurd hnil htcne
              · rw [htr] at hstop
                exact absurd hany hstop
            · exact c3_termination_iff env opts base hfin n
                (session ++ [Msg.ai final] ++ runToolCallMessage opts final.tool_calls) r htail
        · rw [if_neg hflag] at hr
          dsimp only at hr
          rcases List.mem_singleton.mp hr with rfl
          have htcnil : final.tool_calls = [] := by
            cases hlast : states.getLast? with
            | none => rw [hfinal, hlast]; rfl
            | some l =>
              have hmem := List.mem_of_mem_getLast? hlast
              have hfa := List.any_eq_false.mp (Bool.not_eq_true _ ▸ hflag : states.any
                (fun st => !st.tool_calls.isEmpty) = false) l hmem
              have : l.tool_calls.isEmpty = true := by simpa using hfa
              rw [hfinal, hlast]
              exact List.isEmpty_iff.mp this
          refine ⟨⟨fun _ => Or.inl htcnil, fun _ => rfl⟩, fun _ _ => ?_,
            fun _ hc => by simp at hc⟩
          exact List.getLast?_concat _

/-- Instantiation of C3 on the stop-tool model: the single turn calls
the stop tool, so the record is terminal by the stop-tool disjunct and
the session history ends with the AI message followed by the stop
tool's result. -/
theorem c3_termination_iff_witness :
    (∀ msgs : List Msg, tcFinalized (envStopCall.llm msgs)) ∧
    (∀ r ∈ (runLoop envStopCall optsStop [Msg.human "hi"] 5 []).recs,
      (r.ended = true ↔ (r.final.tool_calls = [] ∨
        ∃ tr, optsStop.tool_response = some tr ∧
          r.final.tool_calls.any (fun tc => tc.name == tr.name) = true)) ∧
      (r.ended = true → r.byStop = false →
        r.sessionAfter.getLast? = some (.ai r.final)) ∧
      (r.ended = true → r.byStop = true →
        ∃ pre, r.sessionAfter = pre ++ Msg.ai r.final ::
          runToolCallMessage optsStop r.final.tool_calls ∧ r.final.tool_calls ≠ [])) :=
  ⟨fun _ => show tcFinalized [aiCall "stop"] by decide,
    c3_termination_iff envStopCall optsStop [Msg.human "hi"]
      (fun _ => show tcFinalized [aiCall "stop"] by decide) 5 []⟩

/-- A model that issues a tool call when it sees only the fresh human
input, and a plain text reply once session messages are present. -/
def envTwoPhase : AgentEnv :=
  { supportsBinding := true,
    llm := fun msgs => if msgs.length ≤ 1 then [aiCall "t"] else [aiText "done"] }

/-- C8 counterexample: with configured budget 2, the first invocation of
a freshly constructed agent succeeds using 2 model turns, leaving the
instance counter `_callsLeft` at 0; the second invocation of the same
constructed agent then fails immediately with the budget error after 0
model turns — it does not begin with the full configured budget. -/
theorem c8_fresh_budget_counterexample :
    (agentInvoke envTwoPhase (mkAgent optsBudgetTwo) [] "hi").1.map List.length =
      .ok 3 ∧
    (agentStream envTwoPhase (mkAgent optsBudgetTwo) [] "hi").1.turns = 2 ∧
    ((agentStream envTwoPhase (mkAgent optsBudgetTwo) [] "hi").2).callsLeft = 0 ∧
    (agentInvoke envTwoPhase
      ((agentInvoke envTwoPhase (mkAgent optsBudgetTwo) [] "hi").2) [] "hi").1 =
      .error .budget ∧
    (agentStream envTwoPhase
      ((agentStream envTwoPhase (mkAgent optsBudgetTwo) [] "hi").2) [] "hi").1.turns = 0 :=
  ⟨rfl, rfl, rfl, rfl, rfl⟩

/-- C8 (amended): the turn counter is instance state of the constructed
agent and persists across invocations: an invocation leaves the
counter at its starting value minus the turns it consumed (when tool
binding is supported), consumes at most the remaining counter, and a
subsequent invocation of the same object has only that remainder
available — not the full configured budget. -/
theorem c8_budget_instance_state_amended (env : AgentEnv) (agent : RunnableAgent)
    (hist : List Msg) (input : String) (hb : env.supportsBinding = true) :
    ((agentStream env agent hist input).2).options = agent.options ∧
    ((agentStream env agent hist input).2).callsLeft =
      agent.callsLeft - (agentStream env agent hist input).1.turns ∧
    (agentStream env agent hist input).1.turns ≤ agent.callsLeft ∧
    (∀ (hist2 : List Msg) (input2 : String),
      (agentStream env ((agentStream env agent hist input).2) hist2 input2).1.turns ≤
        agent.callsLeft - (agentStream env agent hist input).1.turns) := by
  have h1 := runLoop_turns env agent.options (hist ++ [Msg.human input]) agent.callsLeft []
  have h3 : ((agentStream env agent hist input).2).callsLeft =
      agent.callsLeft - (agentStream env agent hist input).1.turns := h1.2.2 hb
  refine ⟨rfl, h3, h1.1, ?_⟩
  intro hist2 input2
  have h2 := runLoop_turns env agent.options (hist2 ++ [Msg.human input2])
    (((agentStream env agent hist input).2).callsLeft) []
  exact le_of_le_of_eq h2.1 h3

/-- Instantiation of C8 (amended) on the two-phase model. -/
theorem c8_budget_instance_state_amended_witness :
    envTwoPhase.supportsBinding = true ∧
    (((agentStream envTwoPhase (mkAgent optsBudgetTwo) [] "hi").2).options =
        (mkAgent optsBudgetTwo).options ∧
      ((agentStream envTwoPhase (mkAgent optsBudgetTwo) [] "hi").2).callsLeft =
        (mkAgent optsBudgetTwo).callsLeft -
          (agentStream envTwoPhase (mkAgent optsBudgetTwo) [] "hi").1.turns ∧
      (agentStream envTwoPhase (mkAgent optsBudgetTwo) [] "hi").1.turns ≤
        (mkAgent optsBudgetTwo).callsLeft ∧
      (∀ (hist2 : List Msg) (input2 : String),
        (agentStream envTwoPhase
            ((agentStream envTwoPhase (mkAgent optsBudgetTwo) [] "hi").2) hist2 input2).1.turns ≤
          (mkAgent optsBudgetTwo).callsLeft -
            (agentStream envTwoPhase (mkAgent optsBudgetTwo) [] "hi").1.turns)) :=
  ⟨rfl, c8_budget_instance_state_amended envTwoPhase (mkAgent optsBudgetTwo) [] "hi" rfl⟩

/-- The session history evolves in turn blocks: each completed turn
appends its AI message followed by that turn's tool-result messages
(the dispatcher's output when a tool call was detected, nothing
otherwise) to the previous session history. -/
def sessionChain (opts : AgentOptions) : List Msg → List TurnRec → Prop
  | _, [] => True
  | prev, r :: rest =>
      r.sessionAfter = prev ++ Msg.ai r.final ::
        (if r.flag then runToolCallMessage opts r.final.tool_calls else []) ∧
      sessionChain opts r.sessionAfter rest

/-- The per-turn records of the loop form a session chain from the
starting session history. -/
theorem runLoop_sessionChain (env : AgentEnv) (opts : AgentOptions) (base : List Msg) :
    ∀ (n : Nat) (session : List Msg),
      sessionChain opts session (runLoop env opts base n session).recs
  | 0, session => by
      simp [runLoop, sessionChain]
  | n + 1, session => by
      by_cases hb : env.supportsBinding
      case neg =>
        simp [runLoop, hb, sessionChain]
      case pos =>
        simp only [runLoop, hb, Bool.not_true, Bool.false_eq_true, if_false]
        set states := env.llm (cleanHistoryPure (base ++ session)) with hstates
        set final := states.getLast?.getD emptyAI with hfinal
        by_cases hflag : states.any (fun st => !st.tool_calls.isEmpty) = true
        · rw [if_pos hflag]
          by_cases hstop : (match opts.tool_response with
            | some tr => final.tool_calls.any fun tc => tc.name == tr.name
            | none => false) = true
          · rw [if_pos hstop]
            dsimp only
            refine ⟨?_, trivial⟩
            rw [hflag, if_pos rfl, List.append_assoc]
            rfl
          · rw [if_neg hstop]
            dsimp only
            refine ⟨?_, runLoop_sessionChain env opts base n _⟩
            rw [hflag, if_pos rfl, List.append_assoc]
            rfl
        · rw [if_neg hflag]
          refine ⟨?_, trivial⟩
          dsimp only
          have hflag' : (states.any fun st => !st.tool_calls.isEmpty) = false := by
            exact Bool.not_eq_true _ ▸ hflag
          rw [hflag']
          simp

/-- Session histories along a chain only grow: the session after a
later turn is at least as long as after the turn before it. -/
theorem sessionChain_adjacent (opts : AgentOptions) :
    ∀ (rs1 : List TurnRec) (prev : List Msg) (l : List TurnRec),
      sessionChain opts prev l →
      ∀ (r1 r2 : TurnRec) (rs2 : List TurnRec), l = rs1 ++ r1 :: r2 :: rs2 →
        r1.sessionAfter.length ≤ r2.sessionAfter.length
  | [], prev, l, hc, r1, r2, rs2, hl => by
      subst hl
      rcases hc with ⟨_, h2, _⟩
      rw [h2, List.length_append]
      omega
  | a :: rest, prev, l, hc, r1, r2, rs2, hl => by
      subst hl
      rcases hc with ⟨_, hc'⟩
      exact sessionChain_adjacent opts rest a.sessionAfter _ hc' r1 r2 rs2 rfl

/-- A message list whose length is the number of its AI messages plus
the number of its tool-result messages. -/
def balancedLen (l : List Msg) : Prop :=
  l.length = l.countP isAIMsg + l.countP isToolResultMsg

/-- Appending one AI message and a block of tool-result messages
preserves the length balance. -/
theorem balancedLen_extend (prev : List Msg) (final : AIMsg) (results : List Msg)
    (hp : balancedLen prev) (hr : ∀ r ∈ results, isToolResultMsg r = true) :
    balancedLen (prev ++ Msg.ai final :: results) := by
  unfold balancedLen at hp ⊢
  have hai : results.countP isAIMsg = 0 := by
    rw [List.countP_eq_zero]
    intro r hrm
    have := hr r hrm
    cases r <;> simp_all [isToolResultMsg, isAIMsg]
  have htl : results.countP isToolResultMsg = results.length := by
    rw [List.countP_eq_length]
    intro r hrm
    exact hr r hrm
  simp only [List.length_append, List.countP_append, List.countP_cons, List.length_cons]
  simp [isAIMsg, isToolResultMsg, hai, htl]
  omega

/-- Along a session chain starting from a balanced history every
turn's session history stays balanced. -/
theorem sessionChain_balanced (opts : AgentOptions) :
    ∀ (prev : List Msg) (l : List TurnRec), sessionChain opts prev l →
      balancedLen prev → ∀ r ∈ l, balancedLen r.sessionAfter
  | _, [], _, _, r, hr => absurd hr (List.not_mem_nil _)
  | prev, a :: rest, hc, hp, r, hr => by
      rcases hc with ⟨ha, hc'⟩
      have hres : ∀ m ∈ (if a.flag then runToolCallMessage opts a.final.tool_calls else []),
          isToolResultMsg m = true := by
        intro m hm
        by_cases hf : a.flag
        · rw [if_pos hf] at hm
          rcases List.mem_map.mp hm with ⟨tc, _, hmt⟩
          rw [← hmt]
          exact runOneToolCall_isToolResult opts tc
        · rw [if_neg hf] at hm
          exact absurd hm (List.not_mem_nil _)
      have hab : balancedLen a.sessionAfter := by
        rw [ha]
        exact balancedLen_extend prev a.final _ hp hres
      rcases List.mem_cons.mp hr with rfl | htail
      · exact hab
      · exact sessionChain_balanced opts a.sessionAfter rest hc' hab r htail

/-- C9: For every invocation, the session history evolves as a chain of
turn blocks — each completed turn appends its AI message, then its own
tool-result messages, before the next turn's AI message — its length
never decreases between completed turns, and after every completed
turn it equals the number of AI messages plus the number of
tool-result messages appended so far. -/
theorem c9_session_history_invariant (env : AgentEnv) (opts : AgentOptions)
    (hist : List Msg) (input : String) :
    sessionChain opts [] (agentStream env (mkAgent opts) hist input).1.recs ∧
    (∀ (rs1 : List TurnRec) (r1 r2 : TurnRec) (rs2 : List TurnRec),
      (agentStream env (mkAgent opts) hist input).1.recs = rs1 ++ r1 :: r2 :: rs2 →
      r1.sessionAfter.length ≤ r2.sessionAfter.length) ∧
    (∀ r ∈ (agentStream env (mkAgent opts) hist input).1.recs,
      r.sessionAfter.length =
        r.sessionAfter.countP isAIMsg + r.sessionAfter.countP isToolResultMsg) := by
  have hc := runLoop_sessionChain env opts (hist ++ [Msg.human input])
    ((mkAgent opts).callsLeft) []
  refine ⟨hc, ?_, ?_⟩
  · intro rs1 r1 r2 rs2 hl
    exact sessionChain_adjacent opts rs1 [] _ hc r1 r2 rs2 hl
  · intro r hr
    exact sessionChain_balanced opts [] _ hc rfl r hr

/-- The turn-by-turn correspondence between the message lists passed to
the model capability and the session histories: the `k`-th model call
of an invocation receives exactly the cleaned combined history (base
messages plus the session history left by the previous turns). -/
def inputsMatch (base : List Msg) : List Msg → List (List Msg) → List TurnRec → Prop
  | _, [], [] => True
  | prev, x :: xs, r :: rs =>
      x = cleanHistoryPure (base ++ prev) ∧ inputsMatch base r.sessionAfter xs rs
  | _, [], _ :: _ => False
  | _, _ :: _, [] => False

/-- Every model call of the loop receives the cleaned combined
history of its turn. -/
theorem runLoop_inputsMatch (env : AgentEnv) (opts : AgentOptions) (base : List Msg) :
    ∀ (n : Nat) (session : List Msg),
      inputsMatch base session (runLoop env opts base n session).llmInputs
        (runLoop env opts base n session).recs
  | 0, session => by
      simp [runLoop, inputsMatch]
  | n + 1, session => by
      by_cases hb : env.supportsBinding
      case neg =>
        simp [runLoop, hb, inputsMatch]
      case pos =>
        simp only [runLoop, hb, Bool.not_true, Bool.false_eq_true, if_false]
        set states := env.llm (cleanHistoryPure (base ++ session)) with hstates
        set final := states.getLast?.getD emptyAI with hfinal
        by_cases hflag : states.any (fun st => !st.tool_calls.isEmpty) = true
        · rw [if_pos hflag]
          by_cases hstop : (match opts.tool_response with
            | some tr => final.tool_calls.any fun tc => tc.name == tr.name
            | none => false) = true
          · rw [if_pos hstop]
            exact ⟨rfl, trivial⟩
          · rw [if_neg hstop]
            exact ⟨rfl, runLoop_inputsMatch env opts base n _⟩
        · rw [if_neg hflag]
          exact ⟨rfl, trivial⟩

/-- Cleaning a message is idempotent. -/
theorem cleanMessageVal_idem (m : Msg) :
    cleanMessageVal (cleanMessageVal m) = cleanMessageVal m := by
  cases m with
  | human t => rfl
  | toolMsg c n i st => rfl
  | ai a =>
      cases hc : a.content with
      | str s => simp [cleanMessageVal, hc]
      | blocks bs =>
          simp only [cleanMessageVal, hc, cleanBlocks]
          rw [List.filter_filter]
          simp

/-- Heap characterization of `_cleanHistory`'s mutation: exactly the
cells referenced by the history list are overwritten with their
cleaned value; every other cell is untouched. -/
theorem cleanHistoryHeap_getElem :
    ∀ (hist : List Nat) (store : List Msg) (j : Nat),
      ((cleanHistoryHeap store hist).1)[j]? =
        if j ∈ hist then (store[j]?).map cleanMessageVal else store[j]?
  | [], store, j => by
      simp [cleanHistoryHeap]
  | i :: rest, store, j => by
      have ih := cleanHistoryHeap_getElem rest
        (store.set i (cleanMessageVal (store.getD i (.human "")))) j
      simp only [cleanHistoryHeap, List.foldl_cons] at ih ⊢
      rw [ih]
      by_cases hji : j = i
      · subst hji
        by_cases hlt : j < store.length
        · have hset : (store.set j (cleanMessageVal (store.getD j (.human ""))))[j]? =
              some (cleanMessageVal (store.getD j (.human ""))) :=
            List.getElem?_set_eq_of_lt _ (by simpa using hlt)
          have hget : store[j]? = some (store.getD j (.human "")) := by
            rw [List.getD_eq_getElem?_getD, List.getElem?_eq_getElem hlt]
            rfl
          by_cases hjr : j ∈ rest
          · rw [if_pos hjr, if_pos (List.mem_cons_self _ _), hset, hget]
            simp [cleanMessageVal_idem]
          · rw [if_neg hjr, if_pos (List.mem_cons_self _ _), hset, hget]
            rfl
        · have hlen : (store.set j (cleanMessageVal (store.getD j (.human "")))).length ≤ j := by
            rw [List.length_set]
            omega
          have h1 : (store.set j (cleanMessageVal (store.getD j (.human ""))))[j]? = none :=
            List.getElem?_eq_none hlen
          have h2 : store[j]? = none := List.getElem?_eq_none (by omega)
          by_cases hjr : j ∈ rest
          · rw [if_pos hjr, if_pos (List.mem_cons_self _ _), h1, h2]
          · rw [if_neg hjr, if_pos (List.mem_cons_self _ _), h1, h2]
            rfl
      · have hset : (store.set i (cleanMessageVal (store.getD i (.human ""))))[j]? =
            store[j]? := List.getElem?_set_ne (fun h => hji h.symm)
        by_cases hjr : j ∈ rest
        · rw [if_pos hjr, if_pos (List.mem_cons_of_mem _ hjr), hset]
        · rw [if_neg hjr, hset, if_neg ?_]
          intro hmem
          rcases List.mem_cons.mp hmem with h | h
          · exact hji h
          · exact hjr h

/-- C10: Before every model turn the message list passed to the model
capability is the cleaned combined history (base messages plus the
session history so far), where cleaning removes whitespace-only text
blocks from block-array AI content; cleaning never drops a message
(lengths are preserved and the history list itself is returned
unchanged); and the cleaning acts through the history's references,
overwriting exactly the referenced store cells with their cleaned
values, so caller-supplied message objects are mutated as a side
effect while unreferenced cells are untouched. -/
theorem c10_clean_history_effects (env : AgentEnv) (opts : AgentOptions) (base : List Msg)
    (store : List Msg) (histrefs : List Nat) :
    (∀ (n : Nat) (session : List Msg),
      inputsMatch base session (runLoop env opts base n session).llmInputs
        (runLoop env opts base n session).recs) ∧
    (∀ msgs : List Msg, (cleanHistoryPure msgs).length = msgs.length) ∧
    (cleanHistoryHeap store histrefs).2 = histrefs ∧
    ((cleanHistoryHeap store histrefs).1).length = store.length ∧
    (∀ j : Nat, ((cleanHistoryHeap store histrefs).1)[j]? =
      if j ∈ histrefs then (store[j]?).map cleanMessageVal else store[j]?) ∧
    histrefs.map (fun i => ((cleanHistoryHeap store histrefs).1).getD i (.human "")) =
      cleanHistoryPure (histrefs.map (fun i => store.getD i (.human ""))) := by
  refine ⟨runLoop_inputsMatch env opts base, ?_, rfl, ?_, cleanHistoryHeap_getElem histrefs store, ?_⟩
  · intro msgs
    simp [cleanHistoryPure]
  · show (histrefs.foldl
        (fun st i => st.set i (cleanMessageVal (st.getD i (.human "")))) store).length =
      store.length
    induction histrefs generalizing store with
    | nil => rfl
    | cons i rest ih =>
        simp only [List.foldl_cons]
        rw [ih, List.length_set]
  · unfold cleanHistoryPure
    rw [List.map_map]
    refine List.map_eq_map_iff.mpr ?_
    intro i hi
    have h5 := cleanHistoryHeap_getElem histrefs store i
    rw [if_pos hi] at h5
    rw [List.getD_eq_getElem?_getD, h5]
    cases hv : store[i]? with
    | none =>
        simp [Function.comp, List.getD_eq_getElem?_getD, hv, cleanMessageVal]
    | some v =>
        simp [Function.comp, List.getD_eq_getElem?_getD, hv]
